import Mathlib

/-!
Shallow embedding of the mcp-apple-notes indexing and search core
(src/indexer.ts, src/search.ts, src/embeddings.ts), together with proofs
about the sync planner, the batch accounting, the two RRF fusion paths,
the dispatch predicate, the SQL ordering clause and the embedder's
single-flight lazy initialisation discipline.
-/

namespace Notes

/-! ## Sync planning (src/indexer.ts, syncNotes lines 110-147)

The source diffs the list of Apple note summaries (id, modification_date)
against the persisted metadata map (id -> modificationDate).  Dates are
compared as epoch instants; we model them as integers.  The metadata map
is modelled as an association list looked up on first match. -/

/-- Embeds the `existingMetadata.get` call (a JS `Map` lookup keyed by
note id). -/
def lookupMeta : List (String × Int) → String → Option Int
  | [], _ => none
  | (k, v) :: m, id => if k = id then some v else lookupMeta m id

/-- Embeds the per-summary body of the second loop of syncNotes: a summary
is pushed to notesToUpdate when it is absent from the store or when the
source modification date is strictly newer. -/
def shouldUpdate (M : List (String × Int)) (s : String × Int) : Bool :=
  match lookupMeta M s.1 with
  | none => true
  | some tm => decide (tm < s.2)

/-- Embeds the second loop of syncNotes (lines 132-145): collect the ids of
new or source-modified summaries, in source order. -/
def notesToUpdate (S M : List (String × Int)) : List String :=
  (S.filter (shouldUpdate M)).map Prod.fst

/-- Embeds the first loop of syncNotes (lines 125-129): collect the ids
present in the store but no longer reported by the source. -/
def notesToDelete (S M : List (String × Int)) : List String :=
  (M.filter (fun m => decide (m.1 ∉ S.map Prod.fst))).map Prod.fst

/-- Association lists with distinct keys determine their values. -/
lemma nodup_keys_eq {α β : Type} {l : List (α × β)} (h : (l.map Prod.fst).Nodup)
    {a : α} {b c : β} (hb : (a, b) ∈ l) (hc : (a, c) ∈ l) : b = c := by
  induction l with
  | nil => cases hb
  | cons x xs ih =>
    simp only [List.map_cons, List.nodup_cons] at h
    rcases List.mem_cons.mp hb with rfl | hb2
    · rcases List.mem_cons.mp hc with h2 | hc2
      · exact congrArg Prod.snd h2.symm
      · exact absurd (List.mem_map_of_mem Prod.fst hc2) h.1
    · rcases List.mem_cons.mp hc with rfl | hc2
      · exact absurd (List.mem_map_of_mem Prod.fst hb2) h.1
      · exact ih h.2 hb2 hc2

lemma lookupMeta_eq_none {M : List (String × Int)} {id : String} :
    lookupMeta M id = none ↔ id ∉ M.map Prod.fst := by
  induction M with
  | nil => simp [lookupMeta]
  | cons x xs ih =>
    obtain ⟨k, v⟩ := x
    by_cases hk : k = id
    · subst hk; simp [lookupMeta]
    · simp [lookupMeta, hk, ih, Ne.symm hk]

lemma lookupMeta_mem {M : List (String × Int)} {id : String} {v : Int}
    (h : lookupMeta M id = some v) : (id, v) ∈ M := by
  induction M with
  | nil => simp [lookupMeta] at h
  | cons x xs ih =>
    obtain ⟨k, w⟩ := x
    by_cases hk : k = id
    · subst hk
      rw [lookupMeta, if_pos rfl] at h
      injection h with h
      subst h
      exact List.mem_cons_self _ _
    · rw [lookupMeta, if_neg hk] at h
      exact List.mem_cons_of_mem _ (ih h)

lemma mem_lookupMeta {M : List (String × Int)} (h : (M.map Prod.fst).Nodup)
    {id : String} {v : Int} (hm : (id, v) ∈ M) : lookupMeta M id = some v := by
  induction M with
  | nil => cases hm
  | cons x xs ih =>
    obtain ⟨k, w⟩ := x
    rw [List.map_cons, List.nodup_cons] at h
    rcases List.mem_cons.mp hm with h2 | h2
    · rw [Prod.mk.injEq] at h2
      obtain ⟨rfl, rfl⟩ := h2
      rw [lookupMeta, if_pos rfl]
    · have hmem2 : id ∈ List.map Prod.fst xs := List.mem_map_of_mem Prod.fst h2
      have hk : k ≠ id := by
        intro hkid
        rw [hkid] at h
        exact h.1 hmem2
      rw [lookupMeta, if_neg hk]
      exact ih h.2 h2

/-- C1.  The sync planning phase of syncNotes computes exactly
toDelete = ids in the store that the source no longer reports, and
toUpdate = new ids plus ids whose source modification time is strictly
newer than the stored one; with equal timestamps a note lands in neither
set, and the concrete scenario S = A:10, B:5 against M = B:5, C:1 yields
toUpdate = A and toDelete = C. -/
theorem syncPlan_correct (S M : List (String × Int))
    (hS : (S.map Prod.fst).Nodup) :
    (∀ id, id ∈ notesToDelete S M ↔ id ∈ M.map Prod.fst ∧ id ∉ S.map Prod.fst)
    ∧ (∀ id, id ∈ notesToUpdate S M ↔ ∃ ts, (id, ts) ∈ S ∧
        (lookupMeta M id = none ∨ ∃ tm, lookupMeta M id = some tm ∧ tm < ts))
    ∧ (∀ id ts, (id, ts) ∈ S → lookupMeta M id = some ts →
        id ∉ notesToUpdate S M ∧ id ∉ notesToDelete S M)
    ∧ notesToUpdate [("A", 10), ("B", 5)] [("B", 5), ("C", 1)] = ["A"]
    ∧ notesToDelete [("A", 10), ("B", 5)] [("B", 5), ("C", 1)] = ["C"] := by
  refine ⟨?_, ?_, ?_, by decide, by decide⟩
  · intro id
    constructor
    · intro hdel
      simp only [notesToDelete, List.mem_map, List.mem_filter] at hdel
      obtain ⟨⟨k, v⟩, ⟨hmem, hdec⟩, hfst⟩ := hdel
      have hk : k = id := hfst
      subst hk
      refine ⟨List.mem_map_of_mem Prod.fst hmem, ?_⟩
      intro hmemS
      exact of_decide_eq_true hdec (List.mem_map.mp hmemS)
    · rintro ⟨hmem, hnot⟩
      obtain ⟨⟨k, v⟩, hkv, hfst⟩ := List.mem_map.mp hmem
      have hk : k = id := hfst
      subst hk
      simp only [notesToDelete, List.mem_map, List.mem_filter]
      refine ⟨(k, v), ⟨hkv, decide_eq_true ?_⟩, rfl⟩
      intro hex
      exact hnot (List.mem_map.mpr hex)
  · intro id
    constructor
    · intro hin
      simp only [notesToUpdate, List.mem_map, List.mem_filter] at hin
      obtain ⟨⟨k, v⟩, ⟨hmem, hupd⟩, hfst⟩ := hin
      have hk : k = id := hfst
      subst hk
      refine ⟨v, hmem, ?_⟩
      unfold shouldUpdate at hupd
      rcases hlk : lookupMeta M k with _ | tm
      · exact Or.inl rfl
      · rw [hlk] at hupd
        exact Or.inr ⟨tm, rfl, of_decide_eq_true hupd⟩
    · rintro ⟨ts, hmem, hcond⟩
      simp only [notesToUpdate, List.mem_map, List.mem_filter]
      refine ⟨(id, ts), ⟨hmem, ?_⟩, rfl⟩
      unfold shouldUpdate
      rcases hcond with hnone | ⟨tm, hsome, hlt⟩
      · simp only [hnone]
      · simp only [hsome]
        exact decide_eq_true hlt
  · intro id ts hmem hlk
    constructor
    · intro hin
      simp only [notesToUpdate, List.mem_map, List.mem_filter] at hin
      obtain ⟨⟨k, v⟩, ⟨hkv, hupd⟩, hfst⟩ := hin
      have hk : k = id := hfst
      subst hk
      have hv : v = ts := nodup_keys_eq hS hkv hmem
      subst hv
      unfold shouldUpdate at hupd
      rw [hlk] at hupd
      exact absurd (of_decide_eq_true hupd) (lt_irrefl _)
    · intro hin
      simp only [notesToDelete, List.mem_map, List.mem_filter] at hin
      obtain ⟨⟨k, v⟩, ⟨_, hdec⟩, hfst⟩ := hin
      have hk : k = id := hfst
      subst hk
      exact of_decide_eq_true hdec ⟨(k, ts), hmem, rfl⟩

/-- Witness for syncPlan_correct at the concrete scenario of the spec. -/
theorem syncPlan_correct_witness :
    notesToUpdate [("A", (10 : Int)), ("B", 5)] [("B", 5), ("C", 1)] = ["A"]
    ∧ notesToDelete [("A", (10 : Int)), ("B", 5)] [("B", 5), ("C", 1)] = ["C"] := by
  have h := syncPlan_correct [("A", (10 : Int)), ("B", 5)] [("B", 5), ("C", 1)] (by decide)
  exact ⟨h.2.2.2.1, h.2.2.2.2⟩

/-! ## Batch indexing runs (src/indexer.ts, startFullIndexing lines 51-102
and syncNotes lines 149-208)

Each document's pipeline outcome is abstracted to a Boolean: `true` when
the Promise settles fulfilled, `false` when it rejects.  Promise.allSettled
waits for every member of a batch, so a batch contributes its fulfilled
count to processedNotes and its rejected count to failedNotes, after which
updateJobProgress records the pair.  The job status written by completeJob
is the literal computed at line 89 (`failedNotes === 0 ? "completed" :
"completed"`). -/

/-- Embeds `notes.slice(i, i + BATCH_SIZE)` iterated over the whole list:
partition a list into chunks of size `n` (the last may be shorter). -/
def chunks {α : Type} (n : ℕ) : List α → List (List α)
  | [] => []
  | a :: l => (a :: l.take (n - 1)) :: chunks n (l.drop (n - 1))
termination_by l => l.length
decreasing_by
  simp only [List.length_drop, List.length_cons]
  omega

/-- Value of the BATCH_SIZE constant at src/indexer.ts line 24. -/
def BATCH_SIZE : ℕ := 50

/-- Embeds the batch loop: starting from counters `p` (processed) and `f`
(failed), fold over the batches; returns the final counters and the list of
(processed, failed) snapshots passed to updateJobProgress after each
batch. -/
def runBatches : ℕ → ℕ → List (List Bool) → ℕ × ℕ × List (ℕ × ℕ)
  | p, f, [] => (p, f, [])
  | p, f, b :: bs =>
    let p2 := p + b.count true
    let f2 := f + b.count false
    let rest := runBatches p2 f2 bs
    (rest.1, rest.2.1, (p2, f2) :: rest.2.2)

/-- Final observable state of an indexing run. -/
structure RunResult where
  jobTotal : ℕ
  processed : ℕ
  failed : ℕ
  reports : List (ℕ × ℕ)
  status : String
deriving DecidableEq, Repr

/-- Embeds startFullIndexing: totalNotes documents, batches of BATCH_SIZE,
counters updated from each Promise.allSettled result, status from line
89. -/
def startFullIndexing (outcomes : List Bool) : RunResult :=
  let r := runBatches 0 0 (chunks BATCH_SIZE outcomes)
  { jobTotal := outcomes.length
    processed := r.1
    failed := r.2.1
    reports := r.2.2
    status := if r.2.1 = 0 then "completed" else "completed" }

/-- Embeds the execution phase of syncNotes (lines 149-208): the job total
is updates plus deletes, deletions are applied first and counted as
processed with an immediate progress report, then the update ids are
processed in batches exactly as in the full run, and completeJob writes
"completed". -/
def syncRun (numDelete : ℕ) (outcomes : List Bool) : RunResult :=
  let total := outcomes.length + numDelete
  let deleteReports := if 0 < numDelete then [(numDelete, 0)] else []
  let r := runBatches numDelete 0 (chunks BATCH_SIZE outcomes)
  { jobTotal := total
    processed := r.1
    failed := r.2.1
    reports := deleteReports ++ r.2.2
    status := "completed" }

lemma count_true_add_count_false (l : List Bool) :
    l.count true + l.count false = l.length := by
  induction l with
  | nil => rfl
  | cons b l ih =>
    cases b <;> simp [List.count_cons] <;> omega

lemma chunks_join {α : Type} (n : ℕ) : ∀ l : List α, (chunks n l).flatten = l
  | [] => by rw [chunks]; rfl
  | a :: l => by
    rw [chunks, List.flatten_cons, chunks_join n (l.drop (n - 1))]
    simp
termination_by l => l.length
decreasing_by
  simp only [List.length_drop, List.length_cons]
  omega

lemma runBatches_counts (bs : List (List Bool)) : ∀ p f : ℕ,
    (runBatches p f bs).1 = p + bs.flatten.count true
    ∧ (runBatches p f bs).2.1 = f + bs.flatten.count false := by
  induction bs with
  | nil => intro p f; simp [runBatches]
  | cons b bs ih =>
    intro p f
    have h := ih (p + b.count true) (f + b.count false)
    simp only [runBatches, List.flatten_cons, List.count_append]
    omega

lemma runBatches_reports (bs : List (List Bool)) : ∀ p f : ℕ,
    ∀ pr ∈ (runBatches p f bs).2.2, pr.1 + pr.2 ≤ p + f + bs.flatten.length := by
  induction bs with
  | nil => intro p f pr h; simp [runBatches] at h
  | cons b bs ih =>
    intro p f pr hpr
    simp only [runBatches, List.mem_cons] at hpr
    rcases hpr with rfl | hpr
    · have := count_true_add_count_false b
      simp only [List.flatten_cons, List.length_append]
      omega
    · have h := ih (p + b.count true) (f + b.count false) pr hpr
      have := count_true_add_count_false b
      simp only [List.flatten_cons, List.length_append]
      omega

/-- C3.  At every progress report of a full run or a sync run the counters
satisfy processed + failed ≤ total, and when a full run completes the
counters satisfy processed + failed = total, whatever the per-document
outcome pattern was. -/
theorem job_counts_invariant (outcomes : List Bool) (numDelete : ℕ) :
    (∀ pr ∈ (startFullIndexing outcomes).reports,
        pr.1 + pr.2 ≤ (startFullIndexing outcomes).jobTotal)
    ∧ (startFullIndexing outcomes).processed + (startFullIndexing outcomes).failed
        = (startFullIndexing outcomes).jobTotal
    ∧ (∀ pr ∈ (syncRun numDelete outcomes).reports,
        pr.1 + pr.2 ≤ (syncRun numDelete outcomes).jobTotal)
    ∧ (syncRun numDelete outcomes).processed + (syncRun numDelete outcomes).failed
        = (syncRun numDelete outcomes).jobTotal := by
  have hj : (chunks BATCH_SIZE outcomes).flatten = outcomes := chunks_join _ _
  have hcnt := count_true_add_count_false outcomes
  refine ⟨?_, ?_, ?_, ?_⟩
  · intro pr hpr
    have h := runBatches_reports (chunks BATCH_SIZE outcomes) 0 0 pr hpr
    rw [hj] at h
    simpa [startFullIndexing] using h
  · have h := runBatches_counts (chunks BATCH_SIZE outcomes) 0 0
    rw [hj] at h
    simp only [startFullIndexing]
    omega
  · intro pr hpr
    simp only [syncRun, List.mem_append] at hpr ⊢
    rcases hpr with hpr | hpr
    · rcases Nat.eq_zero_or_pos numDelete with hz | hp
      · simp [hz] at hpr
      · rw [if_pos hp] at hpr
        simp only [List.mem_singleton] at hpr
        subst hpr
        omega
    · have h := runBatches_reports (chunks BATCH_SIZE outcomes) numDelete 0 pr hpr
      rw [hj] at h
      omega
  · have h := runBatches_counts (chunks BATCH_SIZE outcomes) numDelete 0
    rw [hj] at h
    simp only [syncRun]
    omega

/-- Witness for job_counts_invariant: a concrete run of five documents in
which documents 2 and 4 fail, with one prior deletion. -/
theorem job_counts_invariant_witness :
    ((1, 0) : ℕ × ℕ) ∈ (syncRun 1 [true, false, true, false, true]).reports
    ∧ (1 : ℕ) + 0 ≤ (syncRun 1 [true, false, true, false, true]).jobTotal :=
  ⟨by decide,
   (job_counts_invariant [true, false, true, false, true] 1).2.2.1 (1, 0) (by decide)⟩

/-- C4.  A run never aborts on document failures: for every pattern of
per-document outcomes the job finishes with status "completed", every
document is accounted for, and the counters are exactly the fulfilled and
rejected totals over the whole operand list, so one document's rejection
never suppresses the processing of its batch siblings or of later
batches. -/
theorem run_completes_fail_soft (outcomes : List Bool) (numDelete : ℕ) :
    (startFullIndexing outcomes).status = "completed"
    ∧ (startFullIndexing outcomes).processed = outcomes.count true
    ∧ (startFullIndexing outcomes).failed = outcomes.count false
    ∧ (syncRun numDelete outcomes).status = "completed"
    ∧ (syncRun numDelete outcomes).processed = numDelete + outcomes.count true
    ∧ (syncRun numDelete outcomes).failed = outcomes.count false := by
  have hj : (chunks BATCH_SIZE outcomes).flatten = outcomes := chunks_join _ _
  have hfull := runBatches_counts (chunks BATCH_SIZE outcomes) 0 0
  have hsync := runBatches_counts (chunks BATCH_SIZE outcomes) numDelete 0
  rw [hj] at hfull hsync
  refine ⟨?_, ?_, ?_, rfl, ?_, ?_⟩
  · simp only [startFullIndexing]
    split <;> rfl
  · simp only [startFullIndexing]
    omega
  · simp only [startFullIndexing]
    omega
  · simp only [syncRun]
    omega
  · simp only [syncRun]
    omega

/-! ## Strategy A result-set fusion (src/search.ts, hybridSearch lines 33-86)

The two sub-rankings are lists of rows; the code reads only `title` and
`content` from a row, and keys the merge map by the template string
`title::content`.  A JS Map preserves insertion order: updating an
existing key keeps its position, setting a new key appends.  Scores are
exact rationals standing for the JS floating point arithmetic on
reciprocals. -/

/-- Row shape of a vectorSearch / textSearch result as used by
hybridSearch; an id field records the underlying stored document. -/
structure Row where
  id : ℕ
  title : String
  content : String
deriving DecidableEq, Repr

/-- Embeds the merge key template literal at lines 49 and 65. -/
def mapKey (r : Row) : String := r.title ++ "::" ++ r.content

/-- Value stored in the scores map at lines 55-59 and 71-75. -/
structure Entry where
  score : ℚ
  title : String
  content : String
deriving DecidableEq, Repr

/-- The scores Map, as an insertion-ordered association list. -/
abbrev ScoreMap := List (String × Entry)

/-- Embeds `scores.get(key)`. -/
def findEntry : ScoreMap → String → Option Entry
  | [], _ => none
  | (k, e) :: m, key => if k = key then some e else findEntry m key

/-- Fused score of a key in the scores map, when present. -/
def lookupScore (m : ScoreMap) (key : String) : Option ℚ :=
  (findEntry m key).map Entry.score

/-- Embeds one iteration of the forEach bodies at lines 48-61 and 64-77:
add `s` to the existing entry's score in place, or append a fresh entry. -/
def bump (m : ScoreMap) (key : String) (s : ℚ) (t c : String) : ScoreMap :=
  match m with
  | [] => [(key, ⟨s, t, c⟩)]
  | (k, e) :: rest =>
    if k = key then (k, { e with score := e.score + s }) :: rest
    else (k, e) :: bump rest key s t c

/-- Embeds `results.forEach((result, idx) => ...)` with the RRF constant
k = 60 of line 44, starting at index `i`. -/
def processRows : ScoreMap → ℕ → List Row → ScoreMap
  | m, _, [] => m
  | m, i, r :: rs =>
    processRows (bump m (mapKey r) (1 / (60 + (i : ℚ))) r.title r.content) (i + 1) rs

/-- Embeds the whole merge phase: vector results first, then text
results, each from index 0. -/
def hybridFuse (vectorResults textResults : List Row) : ScoreMap :=
  processRows (processRows [] 0 vectorResults) 0 textResults

/-- Output row shape of hybridSearch. -/
structure SearchOut where
  title : String
  content : String
  score : ℚ
deriving DecidableEq, Repr

/-- Embeds the comparator `(a, b) => b.score - a.score` of line 81 as the
total Boolean order "scores descending" used by the stable sort. -/
def scoreDescLe (a b : String × Entry) : Bool := decide (b.2.score ≤ a.2.score)

/-- Embeds lines 80-85: sort the map values by score descending, take the
first `limit`, and project to the output shape. -/
def hybridOutput (vectorResults textResults : List Row) (limit : ℕ) : List SearchOut :=
  (((hybridFuse vectorResults textResults).mergeSort scoreDescLe).take limit).map
    (fun p => ⟨p.2.title, p.2.content, p.2.score⟩)

/-- Spec-language 0-based rank of the first row carrying `key` in a
sub-ranking. -/
def rankOf (key : String) : List Row → Option ℕ
  | [] => none
  | r :: rs => if mapKey r = key then some 0 else (rankOf key rs).map (· + 1)

/-- Spec-language RRF contribution of one sub-ranking to a key: 1/(60+rank)
when the key appears, 0 when it is absent. -/
def rankScore (rows : List Row) (key : String) : ℚ :=
  match rankOf key rows with
  | some r => 1 / (60 + (r : ℚ))
  | none => 0

/-- Total contribution of a sub-ranking processed from index `i`: the sum
of 1/(60+position) over every occurrence of the key. -/
def contribFrom (i : ℕ) (rows : List Row) (key : String) : ℚ :=
  match rows with
  | [] => 0
  | r :: rs => (if mapKey r = key then 1 / (60 + (i : ℚ)) else 0) + contribFrom (i + 1) rs key

lemma findEntry_bump_self (m : ScoreMap) (key : String) (s : ℚ) (t c : String) :
    findEntry (bump m key s t c) key =
      some (match findEntry m key with
            | some e => { e with score := e.score + s }
            | none => ⟨s, t, c⟩) := by
  induction m with
  | nil => simp [bump, findEntry]
  | cons x m ih =>
    obtain ⟨k, e⟩ := x
    by_cases hk : k = key
    · subst hk
      simp [bump, findEntry]
    · simp [bump, findEntry, hk, ih]

lemma findEntry_bump_ne (m : ScoreMap) {key key2 : String} (h : key2 ≠ key)
    (s : ℚ) (t c : String) :
    findEntry (bump m key s t c) key2 = findEntry m key2 := by
  induction m with
  | nil => simp [bump, findEntry, Ne.symm h]
  | cons x m ih =>
    obtain ⟨k, e⟩ := x
    by_cases hk : k = key
    · subst hk
      simp [bump, findEntry, Ne.symm h]
    · by_cases hk2 : k = key2
      · subst hk2
        simp [bump, findEntry, hk]
      · simp [bump, findEntry, hk, hk2, ih]

lemma contribFrom_of_not_mem {key : String} : ∀ (i : ℕ) (rows : List Row),
    key ∉ rows.map mapKey → contribFrom i rows key = 0 := by
  intro i rows
  induction rows generalizing i with
  | nil => intro _; rfl
  | cons r rs ih =>
    intro h
    rw [List.map_cons, List.mem_cons] at h
    push_neg at h
    rw [contribFrom, if_neg (fun he => h.1 he.symm), ih (i + 1) h.2, add_zero]

lemma lookupScore_processRows_some {key : String} :
    ∀ (rows : List Row) (m : ScoreMap) (i : ℕ) (q : ℚ), lookupScore m key = some q →
    lookupScore (processRows m i rows) key = some (q + contribFrom i rows key) := by
  intro rows
  induction rows with
  | nil => intro m i q h; simpa [processRows, contribFrom] using h
  | cons r rs ih =>
    intro m i q h
    rw [processRows, contribFrom]
    by_cases hk : mapKey r = key
    · rw [if_pos hk, ← add_assoc]
      apply ih
      unfold lookupScore at h ⊢
      rcases hfind : findEntry m key with _ | e
      · rw [hfind] at h; cases h
      · rw [hk, findEntry_bump_self, hfind]
        rw [hfind] at h
        have h2 : e.score = q := by simpa using h
        simp [h2]
    · rw [if_neg hk, zero_add]
      apply ih
      unfold lookupScore
      rw [findEntry_bump_ne _ (fun he => hk he.symm)]
      exact h

lemma lookupScore_processRows_none {key : String} :
    ∀ (rows : List Row) (m : ScoreMap) (i : ℕ), lookupScore m key = none →
    lookupScore (processRows m i rows) key =
      if key ∈ rows.map mapKey then some (contribFrom i rows key) else none := by
  intro rows
  induction rows with
  | nil => intro m i h; simpa [processRows, contribFrom] using h
  | cons r rs ih =>
    intro m i h
    rw [processRows, contribFrom]
    by_cases hk : mapKey r = key
    · rw [if_pos hk, if_pos (by rw [List.map_cons, List.mem_cons]; exact Or.inl hk.symm)]
      have hb : lookupScore (bump m key (1 / (60 + (i : ℚ))) r.title r.content) key
          = some (1 / (60 + (i : ℚ))) := by
        unfold lookupScore at h ⊢
        rcases hfind : findEntry m key with _ | e
        · rw [findEntry_bump_self, hfind]
          rfl
        · rw [hfind] at h; cases h
      rw [hk]
      exact lookupScore_processRows_some rs _ (i + 1) _ hb
    · rw [if_neg hk, zero_add]
      have hb : lookupScore (bump m (mapKey r) (1 / (60 + (i : ℚ))) r.title r.content) key = none := by
        unfold lookupScore at h ⊢
        rw [findEntry_bump_ne _ (fun he => hk he.symm)]
        exact h
      rw [ih _ (i + 1) hb]
      simp only [List.map_cons, List.mem_cons]
      by_cases hmem : key ∈ rs.map mapKey
      · rw [if_pos hmem, if_pos (Or.inr hmem)]
      · rw [if_neg hmem, if_neg ?_]
        rintro (he | he)
        · exact hk he.symm
        · exact hmem he

/-- Characterisation of the fused score of any key: both sub-rankings
contribute their full per-occurrence RRF mass. -/
lemma hybridFuse_lookup (vec text : List Row) (key : String) :
    lookupScore (hybridFuse vec text) key =
      if key ∈ vec.map mapKey ∨ key ∈ text.map mapKey
      then some (contribFrom 0 vec key + contribFrom 0 text key) else none := by
  unfold hybridFuse
  have hempty : lookupScore ([] : ScoreMap) key = none := rfl
  have h1 := lookupScore_processRows_none vec [] 0 hempty
  by_cases hv : key ∈ vec.map mapKey
  · rw [if_pos hv] at h1
    have h2 := lookupScore_processRows_some text _ 0 _ h1
    rw [h2, if_pos (Or.inl hv)]
  · rw [if_neg hv] at h1
    have h2 := lookupScore_processRows_none text _ 0 h1
    rw [h2]
    by_cases ht : key ∈ text.map mapKey
    · rw [if_pos ht, if_pos (Or.inr ht),
        contribFrom_of_not_mem 0 vec hv, zero_add]
    · rw [if_neg ht, if_neg (by rintro (h | h); exact hv h; exact ht h)]

lemma contribFrom_nodup {key : String} : ∀ (rows : List Row) (i : ℕ),
    (rows.map mapKey).Nodup →
    contribFrom i rows key =
      (match rankOf key rows with
       | some r => 1 / (60 + (i : ℚ) + (r : ℚ))
       | none => 0) := by
  intro rows
  induction rows with
  | nil => intro i _; rfl
  | cons r rs ih =>
    intro i hnd
    rw [List.map_cons, List.nodup_cons] at hnd
    rw [contribFrom, rankOf]
    by_cases hk : mapKey r = key
    · rw [if_pos hk, if_pos hk]
      have hnot : key ∉ rs.map mapKey := hk ▸ hnd.1
      rw [contribFrom_of_not_mem (i + 1) rs hnot, add_zero]
      norm_num
    · rw [if_neg hk, if_neg hk, zero_add, ih (i + 1) hnd.2]
      rcases hr : rankOf key rs with _ | n
      · simp [hr]
      · simp only [hr]
        show (1 : ℚ) / (60 + ((i + 1 : ℕ) : ℚ) + (n : ℚ)) = 1 / (60 + (i : ℚ) + ((n + 1 : ℕ) : ℚ))
        push_cast
        ring_nf

/-- Under distinct keys per sub-ranking, the fused score is the
spec formula rankScore vec + rankScore text. -/
lemma hybridFuse_lookup_nodup (vec text : List Row) (key : String)
    (hv : (vec.map mapKey).Nodup) (ht : (text.map mapKey).Nodup) :
    lookupScore (hybridFuse vec text) key =
      if key ∈ vec.map mapKey ∨ key ∈ text.map mapKey
      then some (rankScore vec key + rankScore text key) else none := by
  rw [hybridFuse_lookup, contribFrom_nodup vec 0 hv, contribFrom_nodup text 0 ht]
  unfold rankScore
  rcases rankOf key vec with _ | a <;> rcases rankOf key text with _ | b <;>
    simp [Nat.cast_zero]

lemma bump_keys (m : ScoreMap) (key : String) (s : ℚ) (t c : String) :
    (bump m key s t c).map Prod.fst =
      if key ∈ m.map Prod.fst then m.map Prod.fst else m.map Prod.fst ++ [key] := by
  induction m with
  | nil => simp [bump]
  | cons x m ih =>
    obtain ⟨k, e⟩ := x
    by_cases hk : k = key
    · subst hk
      simp [bump]
    · simp only [bump, if_neg hk, List.map_cons, ih, List.mem_cons]
      by_cases hmem : key ∈ m.map Prod.fst
      · rw [if_pos hmem, if_pos (Or.inr hmem)]
      · rw [if_neg hmem, if_neg ?_, List.cons_append]
        rintro (he | he)
        · exact hk he.symm
        · exact hmem he

lemma bump_keys_nodup {m : ScoreMap} (h : (m.map Prod.fst).Nodup)
    (key : String) (s : ℚ) (t c : String) :
    ((bump m key s t c).map Prod.fst).Nodup := by
  rw [bump_keys]
  by_cases hmem : key ∈ m.map Prod.fst
  · rwa [if_pos hmem]
  · rw [if_neg hmem]
    simp [List.nodup_append, h, hmem]

lemma processRows_keys_nodup : ∀ (rows : List Row) (m : ScoreMap) (i : ℕ),
    (m.map Prod.fst).Nodup → ((processRows m i rows).map Prod.fst).Nodup := by
  intro rows
  induction rows with
  | nil => intro m i h; exact h
  | cons r rs ih =>
    intro m i h
    rw [processRows]
    exact ih _ (i + 1) (bump_keys_nodup h _ _ _ _)

lemma hybridFuse_keys_nodup (vec text : List Row) :
    ((hybridFuse vec text).map Prod.fst).Nodup := by
  unfold hybridFuse
  exact processRows_keys_nodup text _ 0 (processRows_keys_nodup vec [] 0 (by simp))

lemma scoreDescLe_trans (a b c : String × Entry)
    (h1 : scoreDescLe a b = true) (h2 : scoreDescLe b c = true) :
    scoreDescLe a c = true := by
  unfold scoreDescLe at h1 h2 ⊢
  rw [decide_eq_true_eq] at h1 h2 ⊢
  exact le_trans h2 h1

lemma scoreDescLe_total (a b : String × Entry) :
    (scoreDescLe a b || scoreDescLe b a) = true := by
  unfold scoreDescLe
  rcases le_total a.2.score b.2.score with h | h <;> simp [h]

lemma rankOf_eq_none {key : String} : ∀ rows : List Row,
    key ∉ rows.map mapKey → rankOf key rows = none := by
  intro rows
  induction rows with
  | nil => intro _; rfl
  | cons r rs ih =>
    intro h
    rw [List.map_cons, List.mem_cons] at h
    push_neg at h
    rw [rankOf, if_neg (fun he => h.1 he.symm), ih h.2]
    rfl

/-- C5.  In Strategy A the fused score of every key is 1/(60+rank) summed
over the sub-rankings that contain it, ranks being 0-based positions; the
output is the top `limit` of the fused entries sorted by score descending;
a document first in both sub-rankings scores 1/30, strictly above the 1/60
of a document first in only one. -/
theorem strategyA_rrf_fusion (vec text : List Row) (limit : ℕ)
    (hv : (vec.map mapKey).Nodup) (ht : (text.map mapKey).Nodup) :
    (∀ key, lookupScore (hybridFuse vec text) key =
        if key ∈ vec.map mapKey ∨ key ∈ text.map mapKey
        then some (rankScore vec key + rankScore text key) else none)
    ∧ ((hybridFuse vec text).mergeSort scoreDescLe).Perm (hybridFuse vec text)
    ∧ (hybridOutput vec text limit).Pairwise (fun a b => b.score ≤ a.score)
    ∧ (hybridOutput vec text limit).length = min limit (hybridFuse vec text).length
    ∧ (∀ v vs t ts2, vec = v :: vs → text = t :: ts2 → mapKey v = mapKey t →
        lookupScore (hybridFuse vec text) (mapKey v) = some (1 / 30))
    ∧ (∀ v vs, vec = v :: vs → mapKey v ∉ text.map mapKey →
        lookupScore (hybridFuse vec text) (mapKey v) = some (1 / 60))
    ∧ ((1 : ℚ) / 30 > 1 / 60) := by
  refine ⟨fun key => hybridFuse_lookup_nodup vec text key hv ht,
    List.mergeSort_perm _ _, ?_, ?_, ?_, ?_, by norm_num⟩
  · have hs := List.sorted_mergeSort scoreDescLe_trans scoreDescLe_total
      (hybridFuse vec text)
    have htake := ((hybridFuse vec text).mergeSort scoreDescLe).take_sublist limit
    have hp := List.Pairwise.sublist htake hs
    unfold hybridOutput
    rw [List.pairwise_map]
    exact hp.imp (fun h => of_decide_eq_true h)
  · unfold hybridOutput
    rw [List.length_map, List.length_take,
      ((hybridFuse vec text).mergeSort_perm scoreDescLe).length_eq]
  · intro v vs t ts2 hvec htext hkey
    rw [hybridFuse_lookup_nodup vec text (mapKey v) hv ht,
      if_pos (Or.inl (by rw [hvec, List.map_cons]; exact List.mem_cons_self _ _))]
    have h1 : rankOf (mapKey v) vec = some 0 := by
      rw [hvec, rankOf, if_pos rfl]
    have h2 : rankOf (mapKey v) text = some 0 := by
      rw [htext, rankOf, if_pos hkey.symm]
    unfold rankScore
    rw [h1, h2]
    norm_num
  · intro v vs hvec hnot
    rw [hybridFuse_lookup_nodup vec text (mapKey v) hv ht,
      if_pos (Or.inl (by rw [hvec, List.map_cons]; exact List.mem_cons_self _ _))]
    have h1 : rankOf (mapKey v) vec = some 0 := by
      rw [hvec, rankOf, if_pos rfl]
    unfold rankScore
    rw [h1, rankOf_eq_none text hnot]
    norm_num

/-- Witness for strategyA_rrf_fusion: the key shared by the heads of both
concrete sub-rankings fuses to 1/30. -/
theorem strategyA_rrf_fusion_witness :
    lookupScore (hybridFuse [⟨1, "a", "x"⟩, ⟨2, "b", "y"⟩] [⟨3, "a", "x"⟩])
      (mapKey ⟨1, "a", "x"⟩) = some (1 / 30) :=
  (strategyA_rrf_fusion [⟨1, "a", "x"⟩, ⟨2, "b", "y"⟩] [⟨3, "a", "x"⟩] 20
    (by decide) (by decide)).2.2.2.2.1 _ _ _ _ rfl rfl rfl

lemma processRows_map_id (f : ℕ → ℕ) : ∀ (rows : List Row) (m : ScoreMap) (i : ℕ),
    processRows m i (rows.map fun r => { r with id := f r.id }) = processRows m i rows := by
  intro rows
  induction rows with
  | nil => intro m i; rfl
  | cons r rs ih =>
    intro m i
    rw [List.map_cons, processRows, processRows]
    exact ih _ (i + 1)

/-- C9.  Strategy A merges sub-ranking rows by the composite string key
title ++ "::" ++ content: rows agreeing on title and content land in one
single map entry whose score is the sum of all their per-ranking
contributions, and document ids play no role whatsoever in the merge. -/
theorem strategyA_merge_by_key (vec text : List Row) (r1 r2 : Row)
    (h1 : r1 ∈ vec) (h2 : r2 ∈ text)
    (hT : r1.title = r2.title) (hC : r1.content = r2.content) :
    ((hybridFuse vec text).map Prod.fst).Nodup
    ∧ mapKey r1 = mapKey r2
    ∧ lookupScore (hybridFuse vec text) (mapKey r1) =
        some (contribFrom 0 vec (mapKey r1) + contribFrom 0 text (mapKey r1))
    ∧ ∀ f g : ℕ → ℕ,
        hybridFuse (vec.map fun r => { r with id := f r.id })
          (text.map fun r => { r with id := g r.id }) = hybridFuse vec text := by
  refine ⟨hybridFuse_keys_nodup vec text, ?_, ?_, ?_⟩
  · unfold mapKey
    rw [hT, hC]
  · rw [hybridFuse_lookup, if_pos (Or.inl (List.mem_map_of_mem mapKey h1))]
  · intro f g
    unfold hybridFuse
    rw [processRows_map_id f vec, processRows_map_id g text]

/-- Witness for strategyA_merge_by_key: two rows with distinct ids but
equal title and content fuse into a single-keyed map. -/
theorem strategyA_merge_by_key_witness :
    ((hybridFuse [⟨1, "t", "c"⟩] [⟨2, "t", "c"⟩]).map Prod.fst).Nodup :=
  (strategyA_merge_by_key [⟨1, "t", "c"⟩] [⟨2, "t", "c"⟩] ⟨1, "t", "c"⟩ ⟨2, "t", "c"⟩
    (by decide) (by decide) rfl rfl).1

/-! ## Strategy B SQL pushdown fusion (src/search.ts, advancedHybridSearch
lines 113-218)

The fused SQL query computes two filtered sub-rankings with
`ROW_NUMBER() OVER (ORDER BY ...)` — which numbers rows starting at 1 —
full-outer-joins them on document id, and scores each joined row with
`(1.0 / (60 + COALESCE(v.rank, 9999))) + (1.0 / (60 + COALESCE(t.rank,
9999)))` (line 205).  We denote a sub-ranking by its ordered row list, so
the row at 0-based position p carries ROW_NUMBER rank p + 1. -/

/-- Row shape of the vector_search / text_search CTEs. -/
structure QRow where
  id : ℕ
  title : String
  content : String
  creation_date : Int
  modification_date : Int
deriving DecidableEq, Repr

/-- The 0-based position of the first row with a given id. -/
def rankOfId (id : ℕ) : List QRow → Option ℕ
  | [] => none
  | r :: rs => if r.id = id then some 0 else (rankOfId id rs).map (· + 1)

/-- Embeds `ROW_NUMBER() OVER (ORDER BY ...)`: ranks are 1-based, so the
row at 0-based position p gets rank p + 1. -/
def sqlRank (rows : List QRow) (id : ℕ) : Option ℕ :=
  (rankOfId id rows).map (· + 1)

/-- Embeds the rrf_score expression of line 205: COALESCE substitutes 9999
for the rank of a side the document is absent from. -/
def sqlRRF (vrank trank : Option ℕ) : ℚ :=
  1 / (60 + ((vrank.getD 9999 : ℕ) : ℚ)) + 1 / (60 + ((trank.getD 9999 : ℕ) : ℚ))

/-- Fused score the SQL full outer join assigns to a document id. -/
def sqlFusedScore (vrows trows : List QRow) (id : ℕ) : ℚ :=
  sqlRRF (sqlRank vrows id) (sqlRank trows id)

/-- Counterexample to C2: a document at the top of both sub-rankings gets
1/30 from the client-side fusion of hybridSearch but 1/61 + 1/61 from the
SQL fusion of advancedHybridSearch, because ROW_NUMBER ranks are 1-based
while the client forEach index is 0-based. -/
theorem rrf_paths_differ :
    lookupScore (hybridFuse [⟨1, "t", "c"⟩] [⟨1, "t", "c"⟩]) (mapKey ⟨1, "t", "c"⟩)
      = some (1 / 30)
    ∧ sqlFusedScore [⟨1, "t", "c", 0, 0⟩] [⟨1, "t", "c", 0, 0⟩] 1 = 1 / 61 + 1 / 61
    ∧ ((1 : ℚ) / 30 ≠ 1 / 61 + 1 / 61) := by
  refine ⟨?_, ?_, by norm_num⟩
  · rw [hybridFuse_lookup_nodup _ _ _ (by decide) (by decide),
      if_pos (Or.inl (by decide))]
    unfold rankScore
    rw [show rankOf (mapKey ⟨1, "t", "c"⟩) [⟨1, "t", "c"⟩] = some 0 from by decide]
    norm_num
  · unfold sqlFusedScore sqlRank sqlRRF
    rw [show rankOfId 1 [(⟨1, "t", "c", 0, 0⟩ : QRow)] = some 0 from by decide]
    norm_num

lemma rankOf_some_mem {key : String} : ∀ {rows : List Row} {r : ℕ},
    rankOf key rows = some r → key ∈ rows.map mapKey := by
  intro rows
  induction rows with
  | nil => intro r h; cases h
  | cons x rs ih =>
    intro r h
    rw [rankOf] at h
    by_cases hk : mapKey x = key
    · rw [List.map_cons]
      exact List.mem_cons.mpr (Or.inl hk.symm)
    · rw [if_neg hk] at h
      rcases ho : rankOf key rs with _ | n
      · rw [ho] at h; cases h
      · rw [List.map_cons]
        exact List.mem_cons.mpr (Or.inr (ih ho))

/-- C2 amended.  Both fusion paths compute the shape 1/(60+rank) per side,
but with different rank conventions: the client merge uses 0-based forEach
indexes while the SQL path uses 1-based ROW_NUMBER ranks, so a document at
0-based positions (rv, rt) of the two sub-rankings scores
1/(60+rv) + 1/(60+rt) in hybridSearch and 1/(61+rv) + 1/(61+rt) in
advancedHybridSearch; an absent side contributes 0 client-side and
1/(60+9999) in SQL. -/
theorem rrf_paths_rank_convention (vec text : List Row) (vrows trows : List QRow)
    (key : String) (id : ℕ) (rv rt : ℕ)
    (hv : (vec.map mapKey).Nodup) (ht : (text.map mapKey).Nodup)
    (h1 : rankOf key vec = some rv) (h2 : rankOf key text = some rt)
    (h3 : rankOfId id vrows = some rv) (h4 : rankOfId id trows = some rt) :
    lookupScore (hybridFuse vec text) key
      = some (1 / (60 + (rv : ℚ)) + 1 / (60 + (rt : ℚ)))
    ∧ sqlFusedScore vrows trows id = 1 / (61 + (rv : ℚ)) + 1 / (61 + (rt : ℚ))
    ∧ sqlRRF none (some (rt + 1)) = 1 / (60 + (9999 : ℚ)) + 1 / (61 + (rt : ℚ)) := by
  refine ⟨?_, ?_, ?_⟩
  · rw [hybridFuse_lookup_nodup vec text key hv ht,
      if_pos (Or.inl (rankOf_some_mem h1))]
    unfold rankScore
    rw [h1, h2]
  · unfold sqlFusedScore sqlRank sqlRRF
    rw [h3, h4]
    simp only [Option.map, Option.getD]
    push_cast
    ring_nf
  · unfold sqlRRF
    simp only [Option.getD]
    push_cast
    ring_nf

/-- Witness for rrf_paths_rank_convention: a document at 0-based position
1 of the vector sub-ranking and 0 of the text sub-ranking. -/
theorem rrf_paths_rank_convention_witness :
    sqlFusedScore [⟨5, "q", "r", 0, 0⟩, ⟨2, "b", "y", 0, 0⟩] [⟨2, "b", "y", 0, 0⟩] 2
      = 1 / (61 + ((1 : ℕ) : ℚ)) + 1 / (61 + ((0 : ℕ) : ℚ)) :=
  (rrf_paths_rank_convention [⟨1, "a", "x"⟩, ⟨2, "b", "y"⟩] [⟨2, "b", "y"⟩]
    [⟨5, "q", "r", 0, 0⟩, ⟨2, "b", "y", 0, 0⟩] [⟨2, "b", "y", 0, 0⟩]
    (mapKey ⟨2, "b", "y"⟩) 2 1 0 (by decide) (by decide) (by decide) (by decide)
    (by decide) (by decide)).2.1

/-! ## Strategy dispatch (src/search.ts, hybridSearch lines 21-31)

The dispatch tests JS truthiness of the four date-filter strings, tests
`has_images !== undefined`, and tests truthiness of `sort_by`.  The
sort_by and sort_order values are the nonempty string literals of the
declared union type, so their truthiness is their presence; an empty
date-filter string however is falsy. -/

inductive SortByOpt where
  | relevance
  | creation_date
  | modification_date
deriving DecidableEq, Repr

inductive SortOrderOpt where
  | asc
  | desc
deriving DecidableEq, Repr

/-- The options object of hybridSearch / advancedHybridSearch. -/
structure SearchOptions where
  created_before : Option String
  created_after : Option String
  modified_before : Option String
  modified_after : Option String
  has_images : Option Bool
  sort_by : Option SortByOpt
  sort_order : Option SortOrderOpt
deriving DecidableEq, Repr

/-- JS truthiness of an optional string: undefined and "" are falsy. -/
def truthyStr : Option String → Bool
  | none => false
  | some s => decide (s ≠ "")

/-- Embeds the dispatch condition of lines 22-29: hybridSearch delegates
to advancedHybridSearch exactly when this is true. -/
def usesAdvancedSearch : Option SearchOptions → Bool
  | none => false
  | some o =>
    truthyStr o.created_before || truthyStr o.created_after ||
    truthyStr o.modified_before || truthyStr o.modified_after ||
    o.has_images.isSome || o.sort_by.isSome

/-- Stated from the claim's words, for comparison with the code: dispatch
on a date filter, an image-presence filter, or a non-default sort. -/
def claimDispatch : Option SearchOptions → Bool
  | none => false
  | some o =>
    o.created_before.isSome || o.created_after.isSome ||
    o.modified_before.isSome || o.modified_after.isSome ||
    o.has_images.isSome ||
    decide (o.sort_by = some .creation_date) ||
    decide (o.sort_by = some .modification_date)

/-- Counterexample to C6: an options object whose only entry is the
default sort `sort_by = "relevance"` requests no filter and no non-default
sort, yet the code dispatches to advancedHybridSearch because any present
sort_by string is truthy. -/
theorem dispatch_claim_fails :
    usesAdvancedSearch (some ⟨none, none, none, none, none, some .relevance, none⟩) = true
    ∧ claimDispatch (some ⟨none, none, none, none, none, some .relevance, none⟩) = false := by
  decide

lemma truthyStr_eq_true {x : Option String} :
    truthyStr x = true ↔ ∃ s, x = some s ∧ s ≠ "" := by
  cases x <;> simp [truthyStr]

/-- C6 amended.  hybridSearch dispatches to advancedHybridSearch exactly
when the options carry a nonempty date-filter string, an image-presence
filter, or any sort_by value — including the explicit default
"relevance"; with no options it always uses result-set fusion. -/
theorem dispatch_condition (o : SearchOptions) :
    (usesAdvancedSearch (some o) = true ↔
      ((∃ s, o.created_before = some s ∧ s ≠ "")
       ∨ (∃ s, o.created_after = some s ∧ s ≠ "")
       ∨ (∃ s, o.modified_before = some s ∧ s ≠ "")
       ∨ (∃ s, o.modified_after = some s ∧ s ≠ "")
       ∨ o.has_images.isSome = true
       ∨ o.sort_by.isSome = true))
    ∧ usesAdvancedSearch none = false := by
  constructor
  · rw [show usesAdvancedSearch (some o) =
        (truthyStr o.created_before || truthyStr o.created_after ||
         truthyStr o.modified_before || truthyStr o.modified_after ||
         o.has_images.isSome || o.sort_by.isSome) from rfl]
    simp only [Bool.or_eq_true, truthyStr_eq_true, or_assoc]
  · rfl

/-- Witness for dispatch_condition: a creation-date filter makes the code
take the advanced path. -/
theorem dispatch_condition_witness :
    usesAdvancedSearch (some ⟨some "2024-01-01", none, none, none, none, none, none⟩) = true :=
  (dispatch_condition ⟨some "2024-01-01", none, none, none, none, none, none⟩).1.mpr
    (Or.inl ⟨"2024-01-01", rfl, by decide⟩)

/-! ## Strategy B final ordering (src/search.ts, lines 165-174 and 208)

The chosen ORDER BY clause is denoted by the total order it sorts the
joined rows with: `ORDER BY rrf_score DESC` by default, overridden by
creation_date or modification_date in the requested direction. -/

/-- Row shape of the outer SELECT of the fused query. -/
structure FusedRow where
  id : ℕ
  title : String
  content : String
  creation_date : Int
  modification_date : Int
  rrf_score : ℚ
deriving DecidableEq, Repr

/-- Embeds lines 166-174: sortBy defaults to "relevance", sortOrder to
"desc", and the final ORDER BY key is picked by the if/else chain. -/
def finalOrderLe (sb : Option SortByOpt) (so : Option SortOrderOpt)
    (a b : FusedRow) : Bool :=
  let sortBy := sb.getD .relevance
  let sortOrder := so.getD .desc
  if sortBy = .creation_date then
    (if sortOrder = .asc then decide (a.creation_date ≤ b.creation_date)
     else decide (b.creation_date ≤ a.creation_date))
  else if sortBy = .modification_date then
    (if sortOrder = .asc then decide (a.modification_date ≤ b.modification_date)
     else decide (b.modification_date ≤ a.modification_date))
  else decide (b.rrf_score ≤ a.rrf_score)

/-- Denotation of the final ORDER BY applied to the joined rows. -/
def advancedOrder (sb : Option SortByOpt) (so : Option SortOrderOpt)
    (rows : List FusedRow) : List FusedRow :=
  rows.mergeSort (finalOrderLe sb so)

lemma finalOrderLe_trans (sb : Option SortByOpt) (so : Option SortOrderOpt)
    (a b c : FusedRow) (h1 : finalOrderLe sb so a b = true)
    (h2 : finalOrderLe sb so b c = true) : finalOrderLe sb so a c = true := by
  unfold finalOrderLe at h1 h2 ⊢
  dsimp only at h1 h2 ⊢
  split_ifs at h1 h2 ⊢ <;> rw [decide_eq_true_eq] at h1 h2 ⊢ <;>
    first
      | exact le_trans h1 h2
      | exact le_trans h2 h1

lemma finalOrderLe_total (sb : Option SortByOpt) (so : Option SortOrderOpt)
    (a b : FusedRow) : (finalOrderLe sb so a b || finalOrderLe sb so b a) = true := by
  unfold finalOrderLe
  dsimp only
  split_ifs <;> simp only [Bool.or_eq_true, decide_eq_true_eq] <;> exact le_total _ _

/-- C7.  The final ordering of advancedHybridSearch: with sort_by
creation_date or modification_date the returned sequence is sorted by that
timestamp in the requested direction, irrespective of fused score; with
sort_by absent or "relevance" it is sorted by fused score descending; the
ordering only permutes the joined row set. -/
theorem advanced_sort_override (rows : List FusedRow) (so : Option SortOrderOpt) :
    (advancedOrder (some .creation_date) (some .asc) rows).Pairwise
      (fun a b => a.creation_date ≤ b.creation_date)
    ∧ (advancedOrder (some .creation_date) (some .desc) rows).Pairwise
      (fun a b => b.creation_date ≤ a.creation_date)
    ∧ (advancedOrder (some .modification_date) (some .asc) rows).Pairwise
      (fun a b => a.modification_date ≤ b.modification_date)
    ∧ (advancedOrder (some .modification_date) (some .desc) rows).Pairwise
      (fun a b => b.modification_date ≤ a.modification_date)
    ∧ (advancedOrder none so rows).Pairwise (fun a b => b.rrf_score ≤ a.rrf_score)
    ∧ (advancedOrder (some .relevance) so rows).Pairwise
      (fun a b => b.rrf_score ≤ a.rrf_score)
    ∧ (advancedOrder (some .creation_date) (some .asc) rows).Perm rows := by
  refine ⟨?_, ?_, ?_, ?_, ?_, ?_, List.mergeSort_perm _ _⟩ <;>
    exact (List.sorted_mergeSort (finalOrderLe_trans _ _) (finalOrderLe_total _ _)
      rows).imp (fun h => by simpa [finalOrderLe] using h)

/-! ## Embedder lazy initialisation (src/embeddings.ts, lines 1-54)

The module state is the pair of variables `extractor` and
`loadingPromise`.  JS runs each synchronous prefix of getExtractor
atomically: from entry up to assigning the freshly started IIFE's promise
into `loadingPromise` there is no suspension point, so a call is one
atomic step on the state.  The load settles later: on success the
continuation after `await pipeline(...)` sets `extractor`, clears
`loadingPromise` and fulfills the promise; on rejection nothing after the
`await` runs, so `loadingPromise` keeps pointing at the now-rejected
promise forever.  Loads are numbered in start order; a completion event
carries the load number and `some instanceId` (fulfilled) or `none`
(rejected), and a given promise settles at most once. -/

/-- Module-level state of embeddings.ts plus bookkeeping: how many
`pipeline(...)` loads were ever started, and the settled outcome of each
started load. -/
structure EmbState where
  extractor : Option ℕ
  loadingPromise : Option ℕ
  started : ℕ
  completions : List (ℕ × Option ℕ)
deriving DecidableEq, Repr

/-- Initial module state: both variables null. -/
def initEmbState : EmbState := ⟨none, none, 0, []⟩

/-- What a getExtractor call hands its caller: a resolved instance, or a
promise to await. -/
inductive CallResult where
  | ready (e : ℕ)
  | awaitLoad (p : ℕ)
deriving DecidableEq, Repr

/-- Embeds the atomic synchronous prefix of getExtractor (lines 16-37):
return the extractor if set, else the in-flight promise if set, else
start load number `started` and store its promise. -/
def getExtractorStep (s : EmbState) : CallResult × EmbState :=
  match s.extractor with
  | some e => (.ready e, s)
  | none =>
    match s.loadingPromise with
    | some p => (.awaitLoad p, s)
    | none =>
      (.awaitLoad s.started,
        { s with loadingPromise := some s.started, started := s.started + 1 })

/-- Embeds the settling of load `i`: only a started, not-yet-settled load
can settle; on success (lines 30-34) the continuation sets `extractor`
and clears `loadingPromise`; on rejection the continuation never runs and
only the settled outcome is recorded. -/
def completeStep (s : EmbState) (i : ℕ) (res : Option ℕ) : EmbState :=
  if i < s.started ∧ i ∉ s.completions.map Prod.fst then
    match res with
    | some e => { s with extractor := some e, loadingPromise := none,
                         completions := (i, some e) :: s.completions }
    | none => { s with completions := (i, none) :: s.completions }
  else s

/-- An interleaving event: a caller runs getExtractor's synchronous
prefix, or a started load settles. -/
inductive EmbEvent where
  | call
  | complete (i : ℕ) (res : Option ℕ)
deriving DecidableEq, Repr

/-- One event of the interleaving applied to state plus collected call
results. -/
def stepEmb (p : EmbState × List CallResult) (ev : EmbEvent) : EmbState × List CallResult :=
  match ev with
  | .call =>
    let r := getExtractorStep p.1
    (r.2, p.2 ++ [r.1])
  | .complete i res => (completeStep p.1 i res, p.2)

/-- Run an arbitrary interleaving from the initial module state. -/
def runEmb (tr : List EmbEvent) : EmbState × List CallResult :=
  tr.foldl stepEmb (initEmbState, [])

/-- A call result is sound for a state: an awaited promise is the single
load number 0, and a delivered instance is the recorded successful
outcome of load 0. -/
def ResOK (s : EmbState) : CallResult → Prop
  | .awaitLoad p => p = 0
  | .ready e => (0, some e) ∈ s.completions

/-- Reachability invariant of the embeddings module state. -/
def EmbInv (s : EmbState) : Prop :=
  s.started ≤ 1
  ∧ (1 ≤ s.started → s.extractor ≠ none ∨ s.loadingPromise ≠ none)
  ∧ (∀ p, s.loadingPromise = some p → p = 0)
  ∧ (∀ pr ∈ s.completions, pr.1 = 0 ∧ pr.1 < s.started)
  ∧ (s.completions.map Prod.fst).Nodup
  ∧ (∀ e, s.extractor = some e → (0, some e) ∈ s.completions)
  ∧ ((0, none) ∈ s.completions → s.extractor = none ∧ s.loadingPromise = some 0)

lemma initEmbState_inv : EmbInv initEmbState := by
  refine ⟨by decide, ?_, ?_, ?_, ?_, ?_, ?_⟩
  · intro h
    exact absurd h (by decide)
  · intro p hp
    cases hp
  · intro pr hpr
    cases hpr
  · exact List.nodup_nil
  · intro e he
    cases he
  · intro h
    cases h

lemma call_completions_mono (s : EmbState) :
    s.completions = (getExtractorStep s).2.completions := by
  obtain ⟨ext, lp, st, comps⟩ := s
  rcases ext with _ | e
  · rcases lp with _ | p <;> rfl
  · rfl

lemma complete_completions_mono (s : EmbState) (i : ℕ) (res : Option ℕ) {pr : ℕ × Option ℕ}
    (h : pr ∈ s.completions) : pr ∈ (completeStep s i res).completions := by
  unfold completeStep
  split
  · rcases res with _ | e
    · exact List.mem_cons_of_mem _ h
    · exact List.mem_cons_of_mem _ h
  · exact h

lemma call_inv {s : EmbState} (h : EmbInv s) :
    EmbInv (getExtractorStep s).2 ∧ ResOK (getExtractorStep s).2 (getExtractorStep s).1 := by
  obtain ⟨ext, lp, st, comps⟩ := s
  obtain ⟨h1, h2, h3, h4, h5, h6, h7⟩ := h
  dsimp only at *
  rcases ext with _ | e
  · rcases lp with _ | p
    · have hst : st = 0 := by
        rcases Nat.eq_zero_or_pos st with hz | hpos
        · exact hz
        · rcases h2 hpos with hc | hc
          · exact absurd rfl hc
          · exact absurd rfl hc
      refine ⟨⟨?_, ?_, ?_, ?_, h5, ?_, ?_⟩, ?_⟩
      · show st + 1 ≤ 1
        omega
      · intro _
        exact Or.inr (by exact Option.some_ne_none st)
      · intro p hp
        have hp2 : st = p := by injection hp
        omega
      · intro pr hpr
        have := h4 pr hpr
        refine ⟨this.1, ?_⟩
        show pr.1 < st + 1
        omega
      · intro e he
        cases he
      · intro hmem
        obtain ⟨ha, hb⟩ := h7 hmem
        cases hb
      · show st = 0
        exact hst
    · exact ⟨⟨h1, h2, h3, h4, h5, h6, h7⟩, h3 p rfl⟩
  · exact ⟨⟨h1, h2, h3, h4, h5, h6, h7⟩, h6 e rfl⟩

lemma complete_inv {s : EmbState} (h : EmbInv s) (i : ℕ) (res : Option ℕ) :
    EmbInv (completeStep s i res) := by
  obtain ⟨ext, lp, st, comps⟩ := s
  obtain ⟨h1, h2, h3, h4, h5, h6, h7⟩ := h
  dsimp only at *
  by_cases hg : i < st ∧ i ∉ comps.map Prod.fst
  · have hstep : completeStep ⟨ext, lp, st, comps⟩ i res =
        match res with
        | some e => ⟨some e, none, st, (i, some e) :: comps⟩
        | none => ⟨ext, lp, st, (i, none) :: comps⟩ := by
      unfold completeStep
      rw [if_pos hg]
    have hi0 : i = 0 := by
      have := hg.1
      omega
    subst hi0
    rw [hstep]
    rcases res with _ | e
    · refine ⟨h1, h2, h3, ?_, ?_, ?_, ?_⟩
      · intro pr hpr
        rcases List.mem_cons.mp hpr with rfl | hpr2
        · exact ⟨rfl, hg.1⟩
        · exact h4 pr hpr2
      · exact List.nodup_cons.mpr ⟨hg.2, h5⟩
      · intro e he
        exact List.mem_cons_of_mem _ (h6 e he)
      · intro _
        have hextnone : ext = none := by
          rcases ext with _ | e
          · rfl
          · have hmem := h6 e rfl
            exact absurd (List.mem_map_of_mem Prod.fst hmem) hg.2
        refine ⟨hextnone, ?_⟩
        subst hextnone
        rcases lp with _ | p
        · rcases h2 (by have := hg.1; omega) with hc | hc
          · exact absurd rfl hc
          · exact absurd rfl hc
        · rw [h3 p rfl]
    · refine ⟨h1, ?_, ?_, ?_, ?_, ?_, ?_⟩
      · intro _
        exact Or.inl (by exact Option.some_ne_none e)
      · intro p hp
        cases hp
      · intro pr hpr
        rcases List.mem_cons.mp hpr with rfl | hpr2
        · exact ⟨rfl, hg.1⟩
        · exact h4 pr hpr2
      · exact List.nodup_cons.mpr ⟨hg.2, h5⟩
      · intro e2 he2
        have he3 : e = e2 := by injection he2
        subst he3
        exact List.mem_cons_self _ _
      · intro hmem
        rcases List.mem_cons.mp hmem with heq | hmem2
        · have : (none : Option ℕ) = some e := congrArg Prod.snd heq
          cases this
        · exact absurd (List.mem_map_of_mem Prod.fst hmem2) hg.2
  · have hstep : completeStep ⟨ext, lp, st, comps⟩ i res = ⟨ext, lp, st, comps⟩ := by
      unfold completeStep
      rw [if_neg hg]
    rw [hstep]
    exact ⟨h1, h2, h3, h4, h5, h6, h7⟩

lemma runEmb_from_inv : ∀ (tr : List EmbEvent) (s : EmbState) (acc : List CallResult),
    EmbInv s → (∀ r ∈ acc, ResOK s r) →
    EmbInv (tr.foldl stepEmb (s, acc)).1
    ∧ ∀ r ∈ (tr.foldl stepEmb (s, acc)).2, ResOK (tr.foldl stepEmb (s, acc)).1 r := by
  intro tr
  induction tr with
  | nil => intro s acc hs hacc; exact ⟨hs, hacc⟩
  | cons ev tr ih =>
    intro s acc hs hacc
    rcases ev with _ | ⟨i, res⟩
    · rw [List.foldl_cons]
      refine ih _ _ (call_inv hs).1 ?_
      intro r hr
      rcases List.mem_append.mp hr with hr2 | hr2
      · have := hacc r hr2
        rcases r with e | p
        · show (0, some e) ∈ (getExtractorStep s).2.completions
          rw [← call_completions_mono]
          exact this
        · exact this
      · rw [List.mem_singleton] at hr2
        subst hr2
        exact (call_inv hs).2
    · rw [List.foldl_cons]
      refine ih _ _ (complete_inv hs i res) ?_
      intro r hr
      have := hacc r hr
      rcases r with e | p
      · exact complete_completions_mono s i res this
      · exact this

lemma runEmb_inv (tr : List EmbEvent) :
    EmbInv (runEmb tr).1 ∧ ∀ r ∈ (runEmb tr).2, ResOK (runEmb tr).1 r := by
  unfold runEmb
  exact runEmb_from_inv tr initEmbState [] initEmbState_inv (by intro r hr; cases hr)

/-- C8.  Every interleaving of getExtractor callers and load settlements
starts at most one model load; every caller that has to wait awaits that
single load (number 0); the successful outcome of load 0 is unique; and
every instance a caller ever receives is that unique outcome — so all
callers get the same ready instance. -/
theorem embedder_single_flight (tr : List EmbEvent) :
    (runEmb tr).1.started ≤ 1
    ∧ (∀ p, CallResult.awaitLoad p ∈ (runEmb tr).2 → p = 0)
    ∧ (∀ e e2, (0, some e) ∈ (runEmb tr).1.completions →
        (0, some e2) ∈ (runEmb tr).1.completions → e = e2)
    ∧ (∀ e, CallResult.ready e ∈ (runEmb tr).2 → (0, some e) ∈ (runEmb tr).1.completions)
    ∧ (∀ e e2, CallResult.ready e ∈ (runEmb tr).2 → CallResult.ready e2 ∈ (runEmb tr).2 →
        e = e2) := by
  obtain ⟨hinv, hres⟩ := runEmb_inv tr
  have huniq : ∀ e e2, (0, some e) ∈ (runEmb tr).1.completions →
      (0, some e2) ∈ (runEmb tr).1.completions → e = e2 := by
    intro e e2 he he2
    have := nodup_keys_eq hinv.2.2.2.2.1 he he2
    injection this
  refine ⟨hinv.1, ?_, huniq, ?_, ?_⟩
  · intro p hp
    exact hres _ hp
  · intro e he
    exact hres _ he
  · intro e e2 he he2
    exact huniq e e2 (hres _ he) (hres _ he2)

/-- Witness for embedder_single_flight: two racing callers, then the load
fulfills with instance 7, then a late caller. -/
theorem embedder_single_flight_witness :
    (runEmb [.call, .call, .complete 0 (some 7), .call]).1.started ≤ 1
    ∧ (7 : ℕ) = 7 :=
  ⟨(embedder_single_flight [.call, .call, .complete 0 (some 7), .call]).1,
   (embedder_single_flight [.call, .call, .complete 0 (some 7), .call]).2.2.2.2 7 7
     (by decide) (by decide)⟩

lemma complete_started_eq (s : EmbState) (i : ℕ) (res : Option ℕ) :
    (completeStep s i res).started = s.started := by
  unfold completeStep
  split
  · rcases res with _ | e <;> rfl
  · rfl

lemma runEmb_from_mem : ∀ (tr : List EmbEvent) (s : EmbState) (acc : List CallResult)
    {pr : ℕ × Option ℕ}, pr ∈ s.completions →
    pr ∈ (tr.foldl stepEmb (s, acc)).1.completions := by
  intro tr
  induction tr with
  | nil => intro s acc pr h; exact h
  | cons ev tr ih =>
    intro s acc pr h
    rcases ev with _ | ⟨i, res⟩
    · rw [List.foldl_cons]
      exact ih _ _ (by rw [← call_completions_mono]; exact h)
    · rw [List.foldl_cons]
      exact ih _ _ (complete_completions_mono s i res h)

/-- C10.  Once the single load has rejected, the module is stuck: the
extractor is unset, loadingPromise still holds the rejected promise 0, a
further getExtractor call just returns that rejected promise without
touching the state — so preloadModel, generateEmbedding and
generateEmbeddings all reject with the original load error — and no
extension of the run ever starts a second load. -/
theorem failed_load_never_retried (tr : List EmbEvent)
    (hfail : (0, none) ∈ (runEmb tr).1.completions) :
    (runEmb tr).1.extractor = none
    ∧ (runEmb tr).1.loadingPromise = some 0
    ∧ getExtractorStep (runEmb tr).1 = (.awaitLoad 0, (runEmb tr).1)
    ∧ ∀ ext : List EmbEvent,
        (runEmb (tr ++ ext)).1.started ≤ 1
        ∧ (0, none) ∈ (runEmb (tr ++ ext)).1.completions
        ∧ (runEmb (tr ++ ext)).1.extractor = none
        ∧ (runEmb (tr ++ ext)).1.loadingPromise = some 0 := by
  obtain ⟨hinv, _⟩ := runEmb_inv tr
  obtain ⟨hext, hlp⟩ := hinv.2.2.2.2.2.2 hfail
  refine ⟨hext, hlp, ?_, ?_⟩
  · unfold getExtractorStep
    rw [hext, hlp]
  · intro ext
    obtain ⟨hinv2, _⟩ := runEmb_inv (tr ++ ext)
    have hmem : (0, none) ∈ (runEmb (tr ++ ext)).1.completions := by
      unfold runEmb at hfail ⊢
      rw [List.foldl_append]
      exact runEmb_from_mem ext _ _ hfail
    obtain ⟨hext2, hlp2⟩ := hinv2.2.2.2.2.2.2 hmem
    exact ⟨hinv2.1, hmem, hext2, hlp2⟩

/-- Witness for failed_load_never_retried: one caller, the load rejects,
another caller arrives. -/
theorem failed_load_never_retried_witness :
    (runEmb [.call, .complete 0 none, .call]).1.extractor = none
    ∧ (runEmb [.call, .complete 0 none, .call]).1.loadingPromise = some 0 :=
  ⟨(failed_load_never_retried [.call, .complete 0 none, .call] (by decide)).1,
   (failed_load_never_retried [.call, .complete 0 none, .call] (by decide)).2.1⟩

end Notes
